import Mathlib

/-!
Shallow embedding of the tuple-map library (src/lib.rs).

The library defines traits TupleMap1 .. TupleMap16 through one macro,
impl_tuple_map!.  Every method body destructures the tuple into its
elements, `let (a, b, c, ...) = self` — or `let (first, rest...)` /
`let (mut acc, rest...)` for the methods that seed an accumulator with
the first element — and then runs one telescoped statement per element,
left to right.  A homogeneous N-tuple is therefore modelled as the list
of its elements in order; the accumulator-seeded methods take the first
element and the list of remaining elements separately, mirroring the
`(mut acc, $name_reduced...)` pattern of the macro.

Rust trait bounds on the element type are modelled by explicit
comparison functions: `POrd` carries `partial_cmp` (so `a < b` is
`partial_cmp a b == some .lt` and `a > b` is `partial_cmp a b ==
some .gt`, the `PartialOrd` defaults), and `PEq` carries `==`
(so `!=` is its Boolean negation).  The contracts Rust documents for
these traits (duality of `<`/`>`, symmetry and transitivity of `==`)
are stated as explicit predicates and assumed only where a theorem
needs them.
-/

namespace TupleMap

/-- Rust `PartialOrd` bound on the element type: `pcmp` models
`partial_cmp : (&self, &Rhs) -> Option<Ordering>`. -/
structure POrd (α : Type) where
  pcmp : α → α → Option Ordering

/-- Rust `a < b` for a `PartialOrd` type: `partial_cmp(a, b) == Some(Less)`. -/
def POrd.ltb (p : POrd α) (a b : α) : Bool :=
  p.pcmp a b == some Ordering.lt

/-- Rust `a > b` for a `PartialOrd` type: `partial_cmp(a, b) == Some(Greater)`. -/
def POrd.gtb (p : POrd α) (a b : α) : Bool :=
  p.pcmp a b == some Ordering.gt

/-- The `PartialOrd` contract (Rust's documented duality of the comparison):
comparing in one direction is the swap of comparing in the other, so
`a < b` exactly when `b > a`. -/
def POrd.Lawful (p : POrd α) : Prop :=
  ∀ a b, p.pcmp a b = (p.pcmp b a).map Ordering.swap

/-- Rust `PartialEq` bound on the element type: `eqb` models `==`;
`!=` is its Boolean negation. -/
structure PEq (α : Type) where
  eqb : α → α → Bool

/-- Symmetry half of the `PartialEq` contract. -/
def PEq.Symm (e : PEq α) : Prop :=
  ∀ a b, e.eqb a b = true → e.eqb b a = true

/-- Transitivity half of the `PartialEq` contract. -/
def PEq.Trans (e : PEq α) : Prop :=
  ∀ a b c, e.eqb a b = true → e.eqb b c = true → e.eqb a c = true

/-- `all`: expansion of `$(if !f($name) { return false } )* true`. -/
def all (f : α → Bool) : List α → Bool
  | [] => true
  | x :: xs => if !(f x) then false else all f xs

/-- `any`: expansion of `$(if f($name) { return true } )* false`. -/
def any (f : α → Bool) : List α → Bool
  | [] => false
  | x :: xs => if f x then true else any f xs

/-- `find`: expansion of `$(if f(&$name) { return Some($name) })* None`. -/
def find (f : α → Bool) : List α → Option α
  | [] => none
  | x :: xs => if f x then some x else find f xs

/-- `fold`: expansion of `$(init = f(init, $name);)* init`. -/
def fold (init : β) (f : β → α → β) : List α → β
  | [] => init
  | x :: xs => fold (f init x) f xs

/-- `id`: returns the tuple unchanged. -/
def id (t : List α) : List α := t

/-- `into_vec`: pushes each element in order into a fresh vector. -/
def into_vec (t : List α) : List α := t

/-- `map`: expansion of `($(f($name),)*)`. -/
def map (f : α → β) : List α → List β
  | [] => []
  | x :: xs => f x :: map f xs

/-- `nth`, from a running counter: per element the code runs
`if _cnt == i { return Some($name) } else { _cnt += 1 }`, then `None`. -/
def nthFrom (cnt i : Nat) : List α → Option α
  | [] => none
  | x :: xs => if cnt = i then some x else nthFrom (cnt + 1) i xs

/-- `nth`: the counter `_cnt` starts at 0. -/
def nth (t : List α) (i : Nat) : Option α := nthFrom 0 i t

/-- `same`: destructures `(first, $name_reduced...)` and runs
`$(if $name_reduced != first { return false } )* true`. -/
def same (e : PEq α) (first : α) : List α → Bool
  | [] => true
  | x :: xs => if !(e.eqb x first) then false else same e first xs

/-- `same_as`: runs `$(if $name != i { return false })* true` over every
element of the tuple. -/
def same_as (e : PEq α) (i : α) : List α → Bool
  | [] => true
  | x :: xs => if !(e.eqb x i) then false else same_as e i xs

/-- `sum`: destructures `(mut acc, $name_reduced...)` and runs
`$(acc += $name_reduced;)* acc`; the element type's `AddAssign` is the
function `addOp`. -/
def sum (addOp : α → α → α) (acc : α) : List α → α
  | [] => acc
  | x :: xs => sum addOp (addOp acc x) xs

/-- `product`: destructures `(mut acc, $name_reduced...)` and runs
`$(acc *= $name_reduced;)* acc`; the element type's `MulAssign` is the
function `mulOp`. -/
def product (mulOp : α → α → α) (acc : α) : List α → α
  | [] => acc
  | x :: xs => product mulOp (mulOp acc x) xs

/-- `tmax`: destructures `(mut acc, $name_reduced...)` and runs
`$(if acc < $name_reduced { acc = $name_reduced; })* acc`. -/
def tmax (p : POrd α) (acc : α) : List α → α
  | [] => acc
  | x :: xs => tmax p (if p.ltb acc x then x else acc) xs

/-- `tmin`: destructures `(mut acc, $name_reduced...)` and runs
`$(if acc > $name_reduced { acc = $name_reduced; })* acc`. -/
def tmin (p : POrd α) (acc : α) : List α → α
  | [] => acc
  | x :: xs => tmin p (if p.gtb acc x then x else acc) xs

/-- `zip`: destructures both tuples (the types force equal arity in Rust)
and pairs the elements positionally. -/
def zip : List α → List β → List (α × β)
  | x :: xs, y :: ys => (x, y) :: zip xs ys
  | _, _ => []

/-- `zipf`: destructures both tuples and combines the elements
positionally with `f`. -/
def zipf (f : α → β → γ) : List α → List β → List γ
  | x :: xs, y :: ys => f x y :: zipf f xs ys
  | _, _ => []

/-- `add`: provided method `self.zipf(other, |a, b| a + b)`. -/
def add (addOp : α → β → γ) (t : List α) (u : List β) : List γ :=
  zipf (fun a b => addOp a b) t u

/-- `sub`: provided method `self.zipf(other, |a, b| a - b)`. -/
def sub (subOp : α → β → γ) (t : List α) (u : List β) : List γ :=
  zipf (fun a b => subOp a b) t u

/-- `mul`: provided method `self.zipf(other, |a, b| a * b)`. -/
def mul (mulOp : α → β → γ) (t : List α) (u : List β) : List γ :=
  zipf (fun a b => mulOp a b) t u

/-- `div`: provided method `self.zipf(other, |a, b| a / b)`. -/
def div (divOp : α → β → γ) (t : List α) (u : List β) : List γ :=
  zipf (fun a b => divOp a b) t u

/-- The step the spec describes for `tmax`: replace the accumulator exactly
when the current element is strictly greater than it under the partial
order. -/
def stepMax (p : POrd α) (acc x : α) : α :=
  if p.gtb x acc then x else acc

/-- The step the spec describes for `tmin`: replace the accumulator exactly
when the current element is strictly lesser than it under the partial
order. -/
def stepMin (p : POrd α) (acc x : α) : α :=
  if p.ltb x acc then x else acc

/-- A concrete lawful partial order for witnesses: `Bool` with its total
order, `partial_cmp` always `some`. -/
def boolOrd : POrd Bool := ⟨fun a b => some (compare a b)⟩

/-- A concrete equality comparison for witnesses: `Bool` with `==`. -/
def boolEq : PEq Bool := ⟨fun a b => a == b⟩

/-- Equality comparison of natural numbers (a `PartialEq` element type for
the concrete examples). -/
def natEq : PEq Nat := ⟨fun a b => a == b⟩

end TupleMap

namespace TupleMap

/-- For a lawful partial order, the code's guard `acc < x` coincides with
the spec's "x is strictly greater than acc". -/
theorem ltb_eq_gtb (p : POrd α) (hp : p.Lawful) (a b : α) :
    p.ltb a b = p.gtb b a := by
  unfold POrd.ltb POrd.gtb
  rw [hp a b]
  cases p.pcmp b a with
  | none => rfl
  | some o => cases o <;> rfl

/-- For a lawful partial order, the code's guard `acc > x` coincides with
the spec's "x is strictly lesser than acc". -/
theorem gtb_eq_ltb (p : POrd α) (hp : p.Lawful) (a b : α) :
    p.gtb a b = p.ltb b a := by
  unfold POrd.ltb POrd.gtb
  rw [hp a b]
  cases p.pcmp b a with
  | none => rfl
  | some o => cases o <;> rfl

theorem tmax_eq_foldl (p : POrd α) (hp : p.Lawful) :
    ∀ (rest : List α) (first : α),
      tmax p first rest = rest.foldl (stepMax p) first := by
  intro rest
  induction rest with
  | nil => intro first; rfl
  | cons x xs ih =>
    intro first
    show tmax p (if p.ltb first x then x else first) xs
        = xs.foldl (stepMax p) (stepMax p first x)
    rw [ih]
    have hx : (if p.ltb first x then x else first) = stepMax p first x := by
      unfold stepMax
      rw [ltb_eq_gtb p hp]
    rw [hx]

theorem tmin_eq_foldl (p : POrd α) (hp : p.Lawful) :
    ∀ (rest : List α) (first : α),
      tmin p first rest = rest.foldl (stepMin p) first := by
  intro rest
  induction rest with
  | nil => intro first; rfl
  | cons x xs ih =>
    intro first
    show tmin p (if p.gtb first x then x else first) xs
        = xs.foldl (stepMin p) (stepMin p first x)
    rw [ih]
    have hx : (if p.gtb first x then x else first) = stepMin p first x := by
      unfold stepMin
      rw [gtb_eq_ltb p hp]
    rw [hx]

/-- C1: for a non-empty homogeneous tuple over a partially ordered element
type (with the comparison satisfying the `PartialOrd` duality contract),
`tmax` (resp. `tmin`) seeds an accumulator with the first element, scans
the remaining elements left to right, and replaces the accumulator exactly
when the current element is strictly greater (resp. strictly lesser) than
it under the partial order; a tie or an unordered comparison (e.g. a NaN
operand, `partial_cmp = none`) leaves the running accumulator unchanged,
so ties keep the earlier value. -/
theorem tmax_tmin_scan (p : POrd α) (hp : p.Lawful) (first : α) (rest : List α) :
    tmax p first rest = rest.foldl (stepMax p) first
    ∧ tmin p first rest = rest.foldl (stepMin p) first
    ∧ (∀ acc x, p.pcmp x acc = some Ordering.eq →
        stepMax p acc x = acc ∧ stepMin p acc x = acc)
    ∧ (∀ acc x, p.pcmp x acc = none →
        stepMax p acc x = acc ∧ stepMin p acc x = acc) := by
  refine ⟨tmax_eq_foldl p hp rest first, tmin_eq_foldl p hp rest first, ?_, ?_⟩
  · intro acc x h
    have hg : p.gtb x acc = false := by unfold POrd.gtb; rw [h]; rfl
    have hl : p.ltb x acc = false := by unfold POrd.ltb; rw [h]; rfl
    exact ⟨by simp [stepMax, hg], by simp [stepMin, hl]⟩
  · intro acc x h
    have hg : p.gtb x acc = false := by unfold POrd.gtb; rw [h]; rfl
    have hl : p.ltb x acc = false := by unfold POrd.ltb; rw [h]; rfl
    exact ⟨by simp [stepMax, hg], by simp [stepMin, hl]⟩

/-- Witness for C1 at the concrete lawful order on `Bool`, tuple
`(false, true)`. -/
theorem tmax_tmin_scan_witness :
    tmax boolOrd false [true] = [true].foldl (stepMax boolOrd) false
    ∧ tmin boolOrd false [true] = [true].foldl (stepMin boolOrd) false
    ∧ (∀ acc x, boolOrd.pcmp x acc = some Ordering.eq →
        stepMax boolOrd acc x = acc ∧ stepMin boolOrd acc x = acc)
    ∧ (∀ acc x, boolOrd.pcmp x acc = none →
        stepMax boolOrd acc x = acc ∧ stepMin boolOrd acc x = acc) :=
  tmax_tmin_scan boolOrd (fun a b => by cases a <;> cases b <;> rfl) false [true]

/-- C10: at arity 1 the macro's reduced-name list is empty, so `sum`,
`product`, `tmax` and `tmin` return the sole element without invoking the
arithmetic or comparison operator at all, and `same` returns `true`
without invoking the equality comparison: the results hold for arbitrary
operator functions. -/
theorem arity_one_ops :
    ∀ (α : Type) (addOp mulOp : α → α → α) (p : POrd α) (e : PEq α) (a : α),
      sum addOp a [] = a ∧ product mulOp a [] = a ∧ tmax p a [] = a
      ∧ tmin p a [] = a ∧ same e a [] = true :=
  fun _ _ _ _ _ _ => ⟨rfl, rfl, rfl, rfl, rfl⟩

theorem same_eq_all_eqb_first (e : PEq α) (first : α) :
    ∀ rest : List α, same e first rest = true ↔ ∀ x ∈ rest, e.eqb x first = true := by
  intro rest
  induction rest with
  | nil => simp [same]
  | cons x xs ih =>
    show (if !(e.eqb x first) then false else same e first xs) = true ↔ _
    cases h : e.eqb x first with
    | false => simp [h]
    | true => simp [h, ih]

theorem same_as_eq_all_eqb (e : PEq α) (v : α) :
    ∀ t : List α, same_as e v t = true ↔ ∀ x ∈ t, e.eqb x v = true := by
  intro t
  induction t with
  | nil => simp [same_as]
  | cons x xs ih =>
    show (if !(e.eqb x v) then false else same_as e v xs) = true ↔ _
    cases h : e.eqb x v with
    | false => simp [h]
    | true => simp [h, ih]

theorem pairwise_of_all_eqb (e : PEq α) (hs : e.Symm) (ht : e.Trans) (v : α) :
    ∀ l : List α, (∀ x ∈ l, e.eqb x v = true) →
      List.Pairwise (fun a b => e.eqb a b = true) l := by
  intro l
  induction l with
  | nil => intro _; exact List.Pairwise.nil
  | cons x xs ih =>
    intro h
    refine List.Pairwise.cons (fun y hy => ?_) (ih fun y hy => h y (List.mem_cons_of_mem _ hy))
    exact ht x v y (h x (List.mem_cons_self x xs)) (hs y v (h y (List.mem_cons_of_mem _ hy)))

/-- C2: for an equality comparison satisfying the `PartialEq` contract
(symmetry and transitivity), `same` on the tuple `(first, rest...)` is true
iff all elements compare equal to each other (pairwise), equivalently iff
every remaining element compares equal to the first; and on a tuple whose
elements all compare equal to a value `v`, both `same` and `same_as v`
return true. -/
theorem same_same_as_spec (e : PEq α) (hs : e.Symm) (ht : e.Trans)
    (first : α) (rest : List α) :
    (same e first rest = true ↔
      List.Pairwise (fun a b => e.eqb a b = true) (first :: rest))
    ∧ (same e first rest = true ↔ ∀ x ∈ rest, e.eqb x first = true)
    ∧ (∀ v, (∀ x ∈ first :: rest, e.eqb x v = true) →
        same e first rest = true ∧ same_as e v (first :: rest) = true) := by
  have hall := same_eq_all_eqb_first e first rest
  refine ⟨?_, hall, ?_⟩
  · rw [hall]
    constructor
    · intro h
      refine List.Pairwise.cons (fun y hy => hs y first (h y hy)) ?_
      exact pairwise_of_all_eqb e hs ht first rest h
    · intro h x hx
      exact hs first x ((List.pairwise_cons.mp h).1 x hx)
  · intro v h
    have hfirst : e.eqb v first = true := hs first v (h first (List.mem_cons_self first rest))
    refine ⟨hall.mpr fun x hx => ?_, ?_⟩
    · exact ht x v first (h x (List.mem_cons_of_mem _ hx)) hfirst
    · exact (same_as_eq_all_eqb e v (first :: rest)).mpr h

/-- Witness for C2 at the concrete equality on `Bool`, tuple `(true, true)`. -/
theorem same_same_as_spec_witness :
    (same boolEq true [true] = true ↔
      List.Pairwise (fun a b => boolEq.eqb a b = true) [true, true])
    ∧ (same boolEq true [true] = true ↔ ∀ x ∈ [true], boolEq.eqb x true = true)
    ∧ (∀ v, (∀ x ∈ [true, true], boolEq.eqb x v = true) →
        same boolEq true [true] = true ∧ same_as boolEq v [true, true] = true) :=
  same_same_as_spec boolEq (fun a b => by cases a <;> cases b <;> simp [boolEq])
    (fun a b c => by cases a <;> cases b <;> cases c <;> simp [boolEq]) true [true]

theorem sum_eq_foldl (addOp : α → α → α) :
    ∀ (rest : List α) (acc : α), sum addOp acc rest = rest.foldl addOp acc := by
  intro rest
  induction rest with
  | nil => intro acc; rfl
  | cons x xs ih => intro acc; exact ih (addOp acc x)

theorem product_eq_foldl (mulOp : α → α → α) :
    ∀ (rest : List α) (acc : α), product mulOp acc rest = rest.foldl mulOp acc := by
  intro rest
  induction rest with
  | nil => intro acc; rfl
  | cons x xs ih => intro acc; exact ih (mulOp acc x)

/-- C3: `sum` and `product` accumulate left to right starting from the
first element (the accumulator is seeded with it, not with a zero or one
identity), so on the 3-tuple `(a, b, c)` they return `(a + b) + c` and
`(a * b) * c`; on `(6, 8, 10)` the sum is 24 and the product is 480. -/
theorem sum_product_first_seeded :
    (∀ (α : Type) (addOp : α → α → α) (first : α) (rest : List α),
        sum addOp first rest = rest.foldl addOp first)
    ∧ (∀ (α : Type) (mulOp : α → α → α) (first : α) (rest : List α),
        product mulOp first rest = rest.foldl mulOp first)
    ∧ (∀ (α : Type) (addOp : α → α → α) (a b c : α),
        sum addOp a [b, c] = addOp (addOp a b) c)
    ∧ (∀ (α : Type) (mulOp : α → α → α) (a b c : α),
        product mulOp a [b, c] = mulOp (mulOp a b) c)
    ∧ sum (fun a b : Nat => a + b) 6 [8, 10] = 24
    ∧ product (fun a b : Nat => a * b) 6 [8, 10] = 480 :=
  ⟨fun _ addOp first rest => sum_eq_foldl addOp rest first,
   fun _ mulOp first rest => product_eq_foldl mulOp rest first,
   fun _ _ _ _ _ => rfl, fun _ _ _ _ _ => rfl, rfl, rfl⟩

theorem fold_eq_foldl (f : β → α → β) :
    ∀ (t : List α) (init : β), fold init f t = t.foldl f init := by
  intro t
  induction t with
  | nil => intro init; rfl
  | cons x xs ih => intro init; exact ih (f init x)

/-- C4: `fold init f` is the left-associative reduction: the accumulator
starts at `init` and is updated once per element in left-to-right order,
so on `(a, b, c)` it returns `f (f (f init a) b) c`, and on `(3, 4, 5)`
with initial value 0 and addition it returns 12. -/
theorem fold_left_assoc :
    (∀ (α β : Type) (f : β → α → β) (init : β) (t : List α),
        fold init f t = t.foldl f init)
    ∧ (∀ (α β : Type) (f : β → α → β) (i : β) (a b c : α),
        fold i f [a, b, c] = f (f (f i a) b) c)
    ∧ fold 0 (fun s x : Nat => s + x) [3, 4, 5] = 12 :=
  ⟨fun _ _ f init t => fold_eq_foldl f t init,
   fun _ _ _ _ _ _ _ => rfl, rfl⟩

theorem nthFrom_eq_getElem? :
    ∀ (t : List α) (cnt i : Nat),
      nthFrom cnt i t = if cnt ≤ i then t[i - cnt]? else none := by
  intro t
  induction t with
  | nil => intro cnt i; simp [nthFrom]
  | cons x xs ih =>
    intro cnt i
    show (if cnt = i then some x else nthFrom (cnt + 1) i xs) = _
    by_cases h : cnt = i
    · subst h
      simp [Nat.le_refl, Nat.sub_self]
    · rw [if_neg h, ih]
      by_cases hle : cnt + 1 ≤ i
      · rw [if_pos hle, if_pos (Nat.le_of_succ_le hle)]
        have hsub : i - cnt = (i - (cnt + 1)) + 1 := by omega
        rw [hsub]
        simp
      · rw [if_neg hle, if_neg (by omega)]

/-- C5: `nth i` returns `some` of the element at zero-based position `i`
when `i` is in range, and `none` — rather than failing — exactly when `i`
is at least the arity; `nth 2` on `(3, 4, 5, 6)` is `some 5` and `nth 10`
on that 4-tuple is `none`. -/
theorem nth_present_absent :
    (∀ (α : Type) (t : List α) (i : Nat), nth t i = t[i]?)
    ∧ (∀ (α : Type) (t : List α) (i : Nat) (h : i < t.length),
        nth t i = some (t.get ⟨i, h⟩))
    ∧ (∀ (α : Type) (t : List α) (i : Nat), t.length ≤ i → nth t i = none)
    ∧ nth [3, 4, 5, 6] 2 = some 5
    ∧ nth ([3, 4, 5, 6] : List Nat) 10 = none := by
  have key : ∀ (α : Type) (t : List α) (i : Nat), nth t i = t[i]? := by
    intro α t i
    rw [nth, nthFrom_eq_getElem?]
    simp
  refine ⟨key, ?_, ?_, by decide, by decide⟩
  · intro α t i h
    rw [key, List.getElem?_eq_getElem h]
    rfl
  · intro α t i h
    rw [key]
    exact List.getElem?_eq_none h

theorem find_none_iff (f : α → Bool) :
    ∀ t : List α, find f t = none ↔ ∀ x ∈ t, f x = false := by
  intro t
  induction t with
  | nil => simp [find]
  | cons x xs ih =>
    show (if f x then some x else find f xs) = none ↔ _
    cases h : f x with
    | true => simp [h]
    | false => simp [h, ih]

theorem find_some_iff (f : α → Bool) :
    ∀ (t : List α) (x : α),
      find f t = some x ↔
        ∃ i : Nat, t[i]? = some x ∧ f x = true ∧
          ∀ j, j < i → ∀ y, t[j]? = some y → f y = false := by
  intro t
  induction t with
  | nil => intro x; simp [find]
  | cons a t ih =>
    intro x
    show (if f a then some a else find f t) = some x ↔ _
    cases h : f a with
    | true =>
      rw [if_pos rfl]
      constructor
      · intro heq
        obtain rfl : a = x := Option.some.injEq a x ▸ congrArg Option.some (Option.some.inj heq)
        exact ⟨0, by simp, h, fun j hj => absurd hj (Nat.not_lt_zero j)⟩
      · rintro ⟨i, hi, hfx, hmin⟩
        cases i with
        | zero => simpa using hi
        | succ k =>
          have : f a = false := hmin 0 (Nat.succ_pos k) a (by simp)
          rw [h] at this
          cases this
    | false =>
      rw [if_neg (by simp [h])]
      rw [ih]
      constructor
      · rintro ⟨i, hi, hfx, hmin⟩
        refine ⟨i + 1, by simpa using hi, hfx, fun j hj y hy => ?_⟩
        cases j with
        | zero =>
          obtain rfl : a = y := by simpa using hy
          exact h
        | succ k => exact hmin k (by omega) y (by simpa using hy)
      · rintro ⟨i, hi, hfx, hmin⟩
        cases i with
        | zero =>
          obtain rfl : a = x := by simpa using hi
          rw [h] at hfx
          cases hfx
        | succ k =>
          exact ⟨k, by simpa using hi, hfx,
            fun j hj y hy => hmin (j + 1) (by omega) y (by simpa using hy)⟩

/-- C6: `find f` returns `some` of the element at the least index
satisfying the predicate (every earlier element fails it), and `none`
exactly when no element satisfies it; on `(3, 3, 5, 3)` with the
predicate "equals 5" it finds the third element. -/
theorem find_first_match :
    (∀ (α : Type) (f : α → Bool) (t : List α) (x : α),
        find f t = some x ↔
          ∃ i : Nat, t[i]? = some x ∧ f x = true ∧
            ∀ j, j < i → ∀ y, t[j]? = some y → f y = false)
    ∧ (∀ (α : Type) (f : α → Bool) (t : List α),
        find f t = none ↔ ∀ x ∈ t, f x = false)
    ∧ find (fun x : Nat => x == 5) [3, 3, 5, 3] = some 5 :=
  ⟨fun _ f t x => find_some_iff f t x, fun _ f t => find_none_iff f t, by decide⟩

theorem map_id_eq (t : List α) : map (fun x => x) t = t := by
  induction t with
  | nil => rfl
  | cons x xs ih => show x :: map (fun x => x) xs = x :: xs; rw [ih]

theorem map_length (f : α → β) : ∀ t : List α, (map f t).length = t.length := by
  intro t
  induction t with
  | nil => rfl
  | cons x xs ih => show (map f xs).length + 1 = xs.length + 1; rw [ih]

theorem map_getElem? (f : α → β) :
    ∀ (t : List α) (i : Nat), (map f t)[i]? = (t[i]?).map f := by
  intro t
  induction t with
  | nil => intro i; simp [map]
  | cons x xs ih =>
    intro i
    cases i with
    | zero => simp [map]
    | succ k => show (f x :: map f xs)[k + 1]? = _; simpa using ih k

/-- C9: mapping with the identity transform is a no-op, and in general
`map f` returns the tuple of the same arity whose element at each
position `i` is `f` applied to the original element at position `i`. -/
theorem map_identity_positions :
    (∀ (α : Type) (t : List α), map (fun x => x) t = t)
    ∧ (∀ (α β : Type) (f : α → β) (t : List α), (map f t).length = t.length)
    ∧ (∀ (α β : Type) (f : α → β) (t : List α) (i : Nat) (hi : i < t.length),
        (map f t)[i]? = some (f (t.get ⟨i, hi⟩))) := by
  refine ⟨fun _ t => map_id_eq t, fun _ _ f t => map_length f t, ?_⟩
  intro α β f t i hi
  rw [map_getElem? f t i, List.getElem?_eq_getElem hi]
  rfl

theorem zipf_eq_map_zip_aux (f : α → β → γ) :
    ∀ (a : List α) (b : List β),
      zipf f a b = map (fun p => f p.1 p.2) (zip a b) := by
  intro a
  induction a with
  | nil => intro b; cases b <;> rfl
  | cons x xs ih =>
    intro b
    cases b with
    | nil => rfl
    | cons y ys =>
      show f x y :: zipf f xs ys = f x y :: map (fun p => f p.1 p.2) (zip xs ys)
      rw [ih]

theorem zip_length :
    ∀ (a : List α) (b : List β), a.length = b.length → (zip a b).length = a.length := by
  intro a
  induction a with
  | nil => intro b _; cases b <;> rfl
  | cons x xs ih =>
    intro b h
    cases b with
    | nil => cases h
    | cons y ys =>
      show (zip xs ys).length + 1 = xs.length + 1
      rw [ih ys (by simpa using h)]

theorem zip_getElem? :
    ∀ (a : List α) (b : List β) (i : Nat) (hi : i < a.length) (hb : i < b.length),
      (zip a b)[i]? = some (a.get ⟨i, hi⟩, b.get ⟨i, hb⟩) := by
  intro a
  induction a with
  | nil => intro b i hi; exact absurd hi (Nat.not_lt_zero i)
  | cons x xs ih =>
    intro b i hi hb
    cases b with
    | nil => exact absurd hb (Nat.not_lt_zero i)
    | cons y ys =>
      cases i with
      | zero => show ((x, y) :: zip xs ys)[0]? = _; simp
      | succ k =>
        show ((x, y) :: zip xs ys)[k + 1]? = _
        simpa using ih ys k (Nat.lt_of_succ_lt_succ hi) (Nat.lt_of_succ_lt_succ hb)

/-- C7: for same-arity tuples, `zipf f` equals mapping the pairs produced
by `zip` through `f`, where `zip` returns the same-arity tuple whose
element at each position is the pair of the operands' elements at that
position. -/
theorem zipf_eq_map_zip (a : List α) (b : List β) (f : α → β → γ)
    (h : a.length = b.length) :
    zipf f a b = map (fun p => f p.1 p.2) (zip a b)
    ∧ (zip a b).length = a.length
    ∧ ∀ (i : Nat) (hi : i < a.length) (hb : i < b.length),
        (zip a b)[i]? = some (a.get ⟨i, hi⟩, b.get ⟨i, hb⟩) :=
  ⟨zipf_eq_map_zip_aux f a b, zip_length a b h,
   fun i hi hb => zip_getElem? a b i hi hb⟩

/-- Witness for C7 at the pair of 2-tuples `(1, 2)` and `(3, 4)` with
addition as the combiner. -/
theorem zipf_eq_map_zip_witness :
    zipf (fun x y : Nat => x + y) [1, 2] [3, 4]
        = map (fun p : Nat × Nat => p.1 + p.2) (zip [1, 2] [3, 4])
    ∧ (zip ([1, 2] : List Nat) ([3, 4] : List Nat)).length
        = ([1, 2] : List Nat).length
    ∧ ∀ (i : Nat) (hi : i < ([1, 2] : List Nat).length)
        (hb : i < ([3, 4] : List Nat).length),
        (zip ([1, 2] : List Nat) ([3, 4] : List Nat))[i]?
          = some (([1, 2] : List Nat).get ⟨i, hi⟩, ([3, 4] : List Nat).get ⟨i, hb⟩) :=
  zipf_eq_map_zip [1, 2] [3, 4] (fun x y => x + y) rfl

theorem zipf_getElem? (op : α → β → γ) :
    ∀ (t : List α) (u : List β) (i : Nat) (hi : i < t.length) (hu : i < u.length),
      (zipf op t u)[i]? = some (op (t.get ⟨i, hi⟩) (u.get ⟨i, hu⟩)) := by
  intro t
  induction t with
  | nil => intro u i hi; exact absurd hi (Nat.not_lt_zero i)
  | cons x xs ih =>
    intro u i hi hu
    cases u with
    | nil => exact absurd hu (Nat.not_lt_zero i)
    | cons y ys =>
      cases i with
      | zero => show (op x y :: zipf op xs ys)[0]? = _; simp
      | succ k =>
        show (op x y :: zipf op xs ys)[k + 1]? = _
        simpa using ih ys k (Nat.lt_of_succ_lt_succ hi) (Nat.lt_of_succ_lt_succ hu)

/-- C8: `add`, `sub`, `mul` and `div` each equal `zipf` applied with the
corresponding operator, and `zipf` combines the operands positionally, so
the four methods return the tuple of positional sums, differences,
products and quotients; concretely on `Nat` tuples,
`(3,4,5).add((3,4,5)) = (6,8,10)`, `(3,4,5).sub((1,2,3)).same_as(2)`,
`(3,4,5).mul((1,2,3)) = (3,8,15)` and `(6,8,10).div((3,4,5)).same_as(2)`. -/
theorem arith_elementwise :
    (∀ (α β γ : Type) (op : α → β → γ) (t : List α) (u : List β),
        add op t u = zipf op t u)
    ∧ (∀ (α β γ : Type) (op : α → β → γ) (t : List α) (u : List β),
        sub op t u = zipf op t u)
    ∧ (∀ (α β γ : Type) (op : α → β → γ) (t : List α) (u : List β),
        mul op t u = zipf op t u)
    ∧ (∀ (α β γ : Type) (op : α → β → γ) (t : List α) (u : List β),
        div op t u = zipf op t u)
    ∧ (∀ (α β γ : Type) (op : α → β → γ) (t : List α) (u : List β) (i : Nat)
        (hi : i < t.length) (hu : i < u.length),
        (zipf op t u)[i]? = some (op (t.get ⟨i, hi⟩) (u.get ⟨i, hu⟩)))
    ∧ add (fun a b : Nat => a + b) [3, 4, 5] [3, 4, 5] = [6, 8, 10]
    ∧ same_as natEq 2 (sub (fun a b : Nat => a - b) [3, 4, 5] [1, 2, 3]) = true
    ∧ mul (fun a b : Nat => a * b) [3, 4, 5] [1, 2, 3] = [3, 8, 15]
    ∧ same_as natEq 2 (div (fun a b : Nat => a / b) [6, 8, 10] [3, 4, 5]) = true :=
  ⟨fun _ _ _ _ _ _ => rfl, fun _ _ _ _ _ _ => rfl,
   fun _ _ _ _ _ _ => rfl, fun _ _ _ _ _ _ => rfl,
   fun _ _ _ op t u i hi hu => zipf_getElem? op t u i hi hu,
   by decide, by decide, by decide, by decide⟩

end TupleMap
